import Mathlib

/-!
Verification of the video-latent extraction pipeline
(`src/tools/extract_video_vae_latents.py`).

The Python source is shallowly embedded below.  Pure computations (frame
index arithmetic, list truncation, shard partitioning, size arithmetic of
the resize/crop transform, the driver's submission/drain discipline) are
translated into executable Lean definitions; Python exceptions are made
explicit with `Except`, and a function that catches all exceptions and
returns `None` becomes a total function into `Option`.  Each definition's
doc comment names the source lines it embeds.
-/

set_option autoImplicit false

/-- Python's built-in `round` (round-half-to-even) on rationals, as used by
`round(width * scale)` in `get_transform` and by torchvision's center-crop
offset `int(round((image_height - crop_height) / 2.0))`. -/
def pyRound (q : ℚ) : ℤ :=
  if q - ⌊q⌋ < 1/2 then ⌊q⌋
  else if 1/2 < q - ⌊q⌋ then ⌊q⌋ + 1
  else if ⌊q⌋ % 2 = 0 then ⌊q⌋ else ⌊q⌋ + 1

/-- Interpolation mode of a torchvision `Resize` (line 42 uses bicubic). -/
inductive Interp where
  | nearest
  | bilinear
  | bicubic
  deriving DecidableEq

/-- One element of the torchvision transform list assembled by
`get_transform` (lines 24-53): `Resize((resized_height, resized_width),
interpolation, antialias)`, `CenterCrop((new_height, new_width))`, or
`Normalize(mean, std)` with per-channel triples. -/
inductive TOp where
  | resize (height width : ℤ) (interpolation : Interp) (antialias : Bool)
  | centerCrop (height width : ℕ)
  | normalize (mean std : ℚ × ℚ × ℚ)
  deriving DecidableEq

/-- Embeds `get_transform` (lines 24-53): when `resize` is requested, the
scale is `max(new_width / width, new_height / height)`, the image is resized
to `(round(height * scale), round(width * scale))` with bicubic antialiased
interpolation and then center-cropped to `(new_height, new_width)`; a
`Normalize((0.5,)*3, (0.5,)*3)` is always appended. -/
def get_transform (width height : ℕ) (new_width new_height : ℕ)
    (resize : Bool) : List TOp :=
  (if resize then
    [TOp.resize (pyRound ((height : ℚ) * max ((new_width : ℚ) / (width : ℚ))
                    ((new_height : ℚ) / (height : ℚ))))
        (pyRound ((width : ℚ) * max ((new_width : ℚ) / (width : ℚ))
                    ((new_height : ℚ) / (height : ℚ))))
        Interp.bicubic true,
     TOp.centerCrop new_height new_width]
   else []) ++ [TOp.normalize (1/2, 1/2, 1/2) (1/2, 1/2, 1/2)]

/-- Offset used by torchvision's center crop:
`int(round((image_size - crop_size) / 2.0))`, for sizes with
`crop_size ≤ image_size` so the difference is a natural number. -/
def cropOffset (d : ℕ) : ℕ := (pyRound ((d : ℚ) / 2)).toNat

/-- Torchvision `CenterCrop` on a height-by-width grid of pixels (the case
`crop_size ≤ image_size`, which the scale-to-cover resize guarantees):
keep `crop_height` rows starting at the centered row offset, and from each
row keep `crop_width` entries starting at the centered column offset. -/
def centerCrop {α : Type} (crop_height crop_width : ℕ)
    (img : List (List α)) : List (List α) :=
  ((img.drop (cropOffset (img.length - crop_height))).take crop_height).map
    (fun row => (row.drop (cropOffset (row.length - crop_width))).take crop_width)

/-- The temporal alignment of line 97:
`duration = ((len(frames) - 1) // 8) * 8 + 1`. -/
def alignment (F : ℕ) : ℕ := ((F - 1) / 8) * 8 + 1

/-- Lines 96-98 of `load_video_and_transform`: first cap the collected
frames to the frame budget (`frames = frames[:frame_number]`), then
truncate to the aligned duration computed from the capped length
(`frames = frames[:duration]`). -/
def capAlignStage {F : Type} (frame_number : ℕ) (frames : List F) : List F :=
  let frames1 := frames.take frame_number
  frames1.take (alignment frames1.length)

/-- Line 99 then line 49: a pixel value in `0..255` is divided by `255`
and then normalized with fixed mean `0.5` and fixed std `0.5`. -/
def normalizePixel (v : ℕ) : ℚ := ((v : ℚ) / 255 - 1/2) / (1/2)

/-- Shape effect of `frame.permute(2, 0, 1)` (line 84): an
`(H, W, C)` frame becomes `(C, H, W)`. -/
def permute_2_0_1 (shape : List ℕ) : List ℕ :=
  match shape with
  | [a, b, c] => [c, a, b]
  | other => other

/-- Shape effect of `frames.permute(1, 0, 2, 3)` (line 107): the stacked
`(T, C, H, W)` tensor becomes `(C, T, H, W)`. -/
def permute_1_0_2_3 (shape : List ℕ) : List ℕ :=
  match shape with
  | [a, b, c, d] => [b, a, c, d]
  | other => other

/-- Outcome of one `video_capture.read()` step (line 74) together with the
per-frame decoding of lines 82-85: either a decoded frame or a raised
exception.  A video source is the finite list of such outcomes; once the
list is exhausted, `read()` returns `flag = False`. -/
inductive ReadResult (F : Type) where
  | ok (frame : F)
  | fail

/-- Message of the exception modeled by `ReadResult.fail`. -/
def readErrMsg : String := "read or decode exception"

/-- Message of the `IndexError` raised by `frame_indexs[-1]` (line 78)
when the requested index list is empty. -/
def indexErrMsg : String := "IndexError: list index out of range"

/-- Message of the error raised by `torch.stack` (line 99) on an empty
list of frames. -/
def stackErrMsg : String := "stack expects a non-empty list of tensors"

/-- The frame-collection loop of lines 71-87: read sequentially; stop when
the source is exhausted (`flag` false) or once the current index exceeds
`frame_indexs[-1]`; collect a frame exactly when its index occurs in the
requested index list.  Exceptions (a failing read/decode, or the
`IndexError` from `frame_indexs[-1]` on an empty request list) are
propagated as `Except.error`, to be caught by the handler of line 112. -/
def readLoop {F : Type} (frame_indexs : List ℕ) (i : ℕ) :
    List (ReadResult F) → Except String (List F)
  | [] => Except.ok []
  | ReadResult.fail :: _ => Except.error readErrMsg
  | ReadResult.ok f :: rest =>
    match frame_indexs.getLast? with
    | none => Except.error indexErrMsg
    | some last =>
      if last < i then Except.ok []
      else if frame_indexs.contains i then
        (readLoop frame_indexs (i + 1) rest).map (fun fs => f :: fs)
      else readLoop frame_indexs (i + 1) rest

/-- Lines 90-109 after frame collection: return `None` when zero frames
were collected (lines 90-93); otherwise cap-and-align (lines 96-98), raise
if stacking an empty list (line 99, possible only when the frame budget is
zero), and apply the per-frame pixel transform (lines 99-107, the
division by 255, resize/crop and normalization, abstracted as
`transform`). -/
def assembleStage {F G : Type} (frame_number : ℕ) (transform : F → G)
    (frames : List F) : Except String (Option (List G)) :=
  if frames.length = 0 then Except.ok none
  else
    let frames1 := capAlignStage frame_number frames
    if frames1.isEmpty then Except.error stackErrMsg
    else Except.ok (some (frames1.map transform))

/-- The whole `try`-block body of `load_video_and_transform`
(lines 67-109): collect frames, then assemble the output tensor. -/
def loadBody {F G : Type} (video : List (ReadResult F))
    (frame_indexs : List ℕ) (frame_number : ℕ) (transform : F → G) :
    Except String (Option (List G)) :=
  Except.bind (readLoop frame_indexs 0 video) (assembleStage frame_number transform)

/-- Observable outcome of `load_video_and_transform`: the returned value
(`None` for absence), whether `cv2.VideoCapture` was successfully
constructed, and whether `video_capture.release()` was called. -/
structure LoadResult (G : Type) where
  result : Option (List G)
  opened : Bool
  released : Bool

/-- Embeds `load_video_and_transform` (lines 57-117).  `openRaises` models
an exception thrown by `cv2.VideoCapture(video_path)` itself, before
`video_capture` is assigned: the handler of line 114 then finds
`video_capture is None` and does not release.  On every other path the
capture is opened and released (line 88 on success, line 115 on
exception), and every exception of the body is caught by line 112,
yielding the absence result `none`. -/
def load_video_and_transform {F G : Type} (openRaises : Bool)
    (video : List (ReadResult F)) (frame_indexs : List ℕ)
    (frame_number : ℕ) (transform : F → G) : LoadResult G :=
  if openRaises then ⟨none, false, false⟩
  else
    match loadBody video frame_indexs frame_number transform with
    | Except.ok r => ⟨r, true, true⟩
    | Except.error _ => ⟨none, true, true⟩

/-- Embeds `VideoDataset.process_one_video` (lines 144-179): the requested
indices default to `list(range(num_frames))` when the manifest entry has
no `frames` field; an absent (`None`) load result yields an empty
work-item list, a present tensor yields exactly one work item pairing the
video path, the tensor and the output latent path. -/
def process_one_video {F G Path : Type} (openRaises : Bool)
    (video : List (ReadResult F)) (framesField : Option (List ℕ))
    (num_frames : ℕ) (transform : F → G)
    (video_path output_latent_path : Path) : List (Path × List G × Path) :=
  let frame_indexs := framesField.getD (List.range num_frames)
  match (load_video_and_transform openRaises video frame_indexs num_frames
      transform).result with
  | none => []
  | some t => [(video_path, t, output_latent_path)]

/-- `num_samples` of `torch.utils.data.DistributedSampler` with
`drop_last=False`: `ceil(len(dataset) / num_replicas)`. -/
def numSamples (M world_size : ℕ) : ℕ := (M + world_size - 1) / world_size

/-- `total_size = num_samples * num_replicas` of `DistributedSampler`. -/
def totalSize (M world_size : ℕ) : ℕ := numSamples M world_size * world_size

/-- The padded index list of `DistributedSampler` with `shuffle=False`,
`drop_last=False` (the configuration of lines 254-257):
`indices = list(range(M))`, then
`indices += indices[:padding_size]` when `padding_size <= M`, else
`indices += (indices * ceil(padding_size / M))[:padding_size]`. -/
def paddedIndices (M world_size : ℕ) : List ℕ :=
  let indices := List.range M
  let padding_size := totalSize M world_size - M
  if padding_size ≤ M then indices ++ indices.take padding_size
  else indices ++
    ((List.replicate ((padding_size + M - 1) / M) indices).flatten).take padding_size

/-- The shard of one rank: the strided slice
`indices[rank : total_size : num_replicas]` of the padded index list,
which for `rank < world_size` has exactly `num_samples` positions. -/
def shard (M world_size rank : ℕ) : List ℕ :=
  (List.range (numSamples M world_size)).filterMap
    (fun k => (paddedIndices M world_size)[rank + k * world_size]?)

/-- Embeds `save_tensor` (lines 275-282): `torch.save` (modeled as an
injected fallible write) is attempted and any exception is swallowed by
`except Exception: pass`. -/
def save_tensor {Tensor : Type} (torchSave : Tensor → String → Except String Unit)
    (tensor : Tensor) (output_path : String) : Except String Unit :=
  match torchSave tensor output_path with
  | Except.ok _ => Except.ok ()
  | Except.error _ => Except.ok ()

/-- Observable events of `main` (lines 286-343): the barrier of line 307,
one `encode_latent` call per work item (line 330), one
`executor.submit(save_tensor, ...)` appended to `task_queue` per encode
(line 337), one collected future result per element of `task_queue`
(lines 340-341), and the final barrier of line 343. -/
inductive Ev where
  | barrierStart
  | encode (item : ℕ)
  | submitWrite (item : ℕ)
  | drainResult (item : ℕ)
  | barrierEnd
  deriving DecidableEq

/-- The flat list of work items produced by the data loader: the
concatenation of all collated batches, in order. -/
def taskItems (batches : List (List ℕ)) : List ℕ := batches.flatten

/-- Event trace of `main`'s driver loop (lines 307-343): after the first
barrier, each batch's items are encoded and submitted in order; after the
input is exhausted, every element of `task_queue` has its result
collected via `futures.as_completed`; then the final barrier runs.
(`as_completed` yields the futures in an unspecified completion order; the
trace records them in queue order, which is sound for the counting and
coverage properties stated below, none of which depend on drain order.) -/
def mainTrace (batches : List (List ℕ)) : List Ev :=
  Ev.barrierStart ::
    ((batches.map (fun b =>
        (b.map (fun x => [Ev.encode x, Ev.submitWrite x])).flatten)).flatten
      ++ (taskItems batches).map Ev.drainResult
      ++ [Ev.barrierEnd])

/-- The encoded items of a trace, in order. -/
def encodesOf (t : List Ev) : List ℕ :=
  t.filterMap (fun e => match e with | Ev.encode x => some x | _ => none)

/-- The submitted persistence tasks of a trace, in order. -/
def submitsOf (t : List Ev) : List ℕ :=
  t.filterMap (fun e => match e with | Ev.submitWrite x => some x | _ => none)

/-- The drained (collected) persistence results of a trace, in order. -/
def drainsOf (t : List Ev) : List ℕ :=
  t.filterMap (fun e => match e with | Ev.drainResult x => some x | _ => none)

/-- C2: for every frame count `F ≥ 1`, the alignment of line 97 equals
`((F-1)//8)*8 + 1`, is at most `F`, is congruent to `1` modulo `8`, and is
the largest such value: any `m ≤ F` with `m % 8 = 1` satisfies
`m ≤ alignment F`. -/
theorem C2_alignment_largest_aligned (F : ℕ) (hF : 1 ≤ F) :
    alignment F = ((F - 1) / 8) * 8 + 1 ∧
    alignment F ≤ F ∧
    alignment F % 8 = 1 ∧
    ∀ m : ℕ, m ≤ F → m % 8 = 1 → m ≤ alignment F := by
  refine ⟨rfl, ?_, ?_, ?_⟩
  · unfold alignment; omega
  · unfold alignment; omega
  · intro m hm h8; unfold alignment; omega

/-- Witness for C2 at `F = 30`: the aligned count is `25`, which is at
most `30`, congruent to `1` mod `8`, and at least the aligned value `17`. -/
theorem C2_alignment_witness :
    alignment 30 ≤ 30 ∧ alignment 30 % 8 = 1 ∧ 17 ≤ alignment 30 :=
  ⟨(C2_alignment_largest_aligned 30 (by decide)).2.1,
   (C2_alignment_largest_aligned 30 (by decide)).2.2.1,
   (C2_alignment_largest_aligned 30 (by decide)).2.2.2 17 (by decide) (by decide)⟩

/-- C3: the truncation of lines 96-98 caps the collected frames to the
first `min(L, N)` and only then truncates to the aligned length computed
from the capped count, both truncations preceding the per-frame pixel
transform; the resulting temporal length is `((min(L,N)-1)//8)*8 + 1`. -/
theorem C3_cap_then_align {F G : Type} (transform : F → G) (frames : List F)
    (N : ℕ) (hL : 1 ≤ frames.length) (hN : 1 ≤ N) :
    capAlignStage N frames = frames.take (alignment (min frames.length N)) ∧
    assembleStage N transform frames =
      Except.ok (some ((frames.take (alignment (min frames.length N))).map transform)) ∧
    (capAlignStage N frames).length = alignment (min frames.length N) := by
  have hal : alignment (min frames.length N) ≤ min frames.length N := by
    have h1 : 1 ≤ min frames.length N := le_min hL hN
    unfold alignment; omega
  have halN : alignment (min frames.length N) ≤ N :=
    le_trans hal (min_le_right _ _)
  have halL : alignment (min frames.length N) ≤ frames.length :=
    le_trans hal (min_le_left _ _)
  have hcap : capAlignStage N frames =
      frames.take (alignment (min frames.length N)) := by
    simp only [capAlignStage, List.length_take, List.take_take]
    rw [Nat.min_comm N frames.length, Nat.min_eq_left halN]
  have hlen : (capAlignStage N frames).length = alignment (min frames.length N) := by
    rw [hcap, List.length_take, Nat.min_eq_left halL]
  have hne : capAlignStage N frames ≠ [] := by
    intro h
    rw [h] at hlen
    simp only [List.length_nil, alignment] at hlen
    omega
  refine ⟨hcap, ?_, hlen⟩
  unfold assembleStage
  rw [if_neg (by omega)]
  simp only []
  rw [if_neg (by simpa [List.isEmpty_iff] using hne), hcap]

/-- Witness for C3: twelve collected frames with frame budget ten are
capped to ten and aligned down to nine, before the transform is applied. -/
theorem C3_cap_then_align_witness :
    capAlignStage 10 [0, 1, 2, 3, 4, 5, 6, 7, 8, 9, 10, 11] =
      ([0, 1, 2, 3, 4, 5, 6, 7, 8, 9, 10, 11] : List ℕ).take
        (alignment (min ([0, 1, 2, 3, 4, 5, 6, 7, 8, 9, 10, 11] : List ℕ).length 10)) ∧
    (capAlignStage 10 ([0, 1, 2, 3, 4, 5, 6, 7, 8, 9, 10, 11] : List ℕ)).length =
      alignment (min ([0, 1, 2, 3, 4, 5, 6, 7, 8, 9, 10, 11] : List ℕ).length 10) := by
  have h := C3_cap_then_align (fun x : ℕ => x)
    [0, 1, 2, 3, 4, 5, 6, 7, 8, 9, 10, 11] 10 (by decide) (by decide)
  exact ⟨h.1, h.2.2⟩

/-- C8: `save_tensor` (lines 275-282) never raises: whatever the outcome
of the underlying `torch.save`, the exception is swallowed and the
function returns normally, so a persistence failure costs only that one
output file. -/
theorem C8_save_tensor_never_raises {Tensor : Type}
    (torchSave : Tensor → String → Except String Unit) (tensor : Tensor)
    (output_path : String) :
    save_tensor torchSave tensor output_path = Except.ok () := by
  unfold save_tensor
  cases torchSave tensor output_path <;> rfl

/-- C9: each pixel value `v` in `0..255` is mapped to `v/255` in `[0,1]`
(line 99) and then normalized with fixed mean `0.5` and std `0.5`
(line 49), giving `(v/255 - 0.5)/0.5` in `[-1,1]`; the per-frame permute
of line 84 and the final permute of line 107 produce the
`(channels, time, height, width)` layout. -/
theorem C9_pixel_range_and_layout (v T C H W : ℕ) (hv : v ≤ 255) :
    (0 ≤ (v : ℚ) / 255 ∧ (v : ℚ) / 255 ≤ 1) ∧
    normalizePixel v = ((v : ℚ) / 255 - 1/2) / (1/2) ∧
    (-1 ≤ normalizePixel v ∧ normalizePixel v ≤ 1) ∧
    permute_2_0_1 [H, W, C] = [C, H, W] ∧
    permute_1_0_2_3 [T, C, H, W] = [C, T, H, W] := by
  have h255 : (v : ℚ) ≤ 255 := by exact_mod_cast hv
  have hd0 : (0 : ℚ) ≤ (v : ℚ) / 255 := by positivity
  have hd1 : (v : ℚ) / 255 ≤ 1 := by
    rw [div_le_one (by norm_num)]
    exact h255
  have hnp : normalizePixel v = 2 * ((v : ℚ) / 255) - 1 := by
    unfold normalizePixel; ring
  refine ⟨⟨hd0, hd1⟩, rfl, ⟨?_, ?_⟩, rfl, rfl⟩ <;> rw [hnp] <;> linarith

/-- Witness for C9 at the extreme pixel value `255`: it normalizes into
`[-1, 1]`, and the permutes rearrange a concrete shape as claimed. -/
theorem C9_pixel_range_witness :
    (-1 ≤ normalizePixel 255 ∧ normalizePixel 255 ≤ 1) ∧
    permute_1_0_2_3 [9, 3, 384, 640] = [3, 9, 384, 640] :=
  ⟨(C9_pixel_range_and_layout 255 9 3 384 640 (by decide)).2.2.1,
   (C9_pixel_range_and_layout 255 9 3 384 640 (by decide)).2.2.2.2⟩

/-- C10: an empty `frames` list in a manifest entry does not crash the
pipeline: with at least one readable frame, `frame_indexs[-1]` raises an
`IndexError` inside the `try` block; in every case the generic handler
makes `load_video_and_transform` return `None` and the entry yields zero
work items. -/
theorem C10_empty_frames_list_degrades {F G Path : Type}
    (video : List (ReadResult F)) (N : ℕ) (transform : F → G)
    (video_path output_latent_path : Path) :
    (load_video_and_transform false video [] N transform).result = none ∧
    process_one_video false video (some []) N transform video_path
      output_latent_path = [] ∧
    ∀ f rest, video = ReadResult.ok f :: rest →
      loadBody video [] N transform = Except.error indexErrMsg := by
  have hbody : loadBody video ([] : List ℕ) N transform = Except.ok none ∨
      ∃ e, loadBody video ([] : List ℕ) N transform = Except.error e := by
    cases video with
    | nil =>
      left
      simp [loadBody, readLoop, Except.bind, assembleStage]
    | cons head tail =>
      cases head with
      | fail =>
        right
        exact ⟨readErrMsg, by simp [loadBody, readLoop, Except.bind]⟩
      | ok f =>
        right
        exact ⟨indexErrMsg, by simp [loadBody, readLoop, Except.bind]⟩
  have hres : (load_video_and_transform false video ([] : List ℕ) N
      transform).result = none := by
    rcases hbody with h | ⟨e, h⟩ <;> simp [load_video_and_transform, h]
  refine ⟨hres, ?_, ?_⟩
  · simp only [process_one_video, Option.getD_some]
    rw [hres]
  · intro f rest hv
    subst hv
    simp [loadBody, readLoop, Except.bind]

/-- Witness for C10: one readable frame and an empty request list raise
the modeled `IndexError`, caught into the absence result. -/
theorem C10_empty_frames_witness :
    (load_video_and_transform false [ReadResult.ok (7 : ℕ)] [] 3
      (fun x : ℕ => x)).result = none ∧
    loadBody [ReadResult.ok (7 : ℕ)] [] 3 (fun x : ℕ => x) =
      Except.error indexErrMsg := by
  have h := C10_empty_frames_list_degrades [ReadResult.ok (7 : ℕ)] 3
    (fun x : ℕ => x) (0 : ℕ) 1
  exact ⟨h.1, h.2.2 7 [] rfl⟩

/-- C4: `load_video_and_transform` contains every failure: the capture is
released exactly when it was opened; any exception of the body yields the
absence result `None`; zero collected frames yield `None`; and
`process_one_video` turns absence into an empty work-item list, so
corrupt or zero-frame videos produce zero output items without raising. -/
theorem C4_exceptions_contained {F G Path : Type} (openRaises : Bool)
    (video : List (ReadResult F)) (frame_indexs : List ℕ) (N : ℕ)
    (transform : F → G) (video_path output_latent_path : Path) :
    ((load_video_and_transform openRaises video frame_indexs N
        transform).released =
      (load_video_and_transform openRaises video frame_indexs N
        transform).opened) ∧
    (∀ e, loadBody video frame_indexs N transform = Except.error e →
      (load_video_and_transform false video frame_indexs N
        transform).result = none) ∧
    (readLoop frame_indexs 0 video = Except.ok ([] : List F) →
      (load_video_and_transform false video frame_indexs N
        transform).result = none) ∧
    ((load_video_and_transform openRaises video frame_indexs N
        transform).result = none →
      process_one_video openRaises video (some frame_indexs) N transform
        video_path output_latent_path = []) := by
  refine ⟨?_, ?_, ?_, ?_⟩
  · cases openRaises with
    | false =>
      cases h : loadBody video frame_indexs N transform <;>
        simp [load_video_and_transform, h]
    | true => simp [load_video_and_transform]
  · intro e he
    simp [load_video_and_transform, he]
  · intro hr
    have hb : loadBody video frame_indexs N transform = Except.ok none := by
      simp [loadBody, hr, Except.bind, assembleStage]
    simp [load_video_and_transform, hb]
  · intro hres
    simp only [process_one_video, Option.getD_some]
    rw [hres]

/-- Witness for C4: a video whose first read raises is absorbed into the
absence result and yields zero work items. -/
theorem C4_exceptions_witness :
    (load_video_and_transform false ([ReadResult.fail] : List (ReadResult ℕ))
      [0] 1 (fun x : ℕ => x)).result = none ∧
    process_one_video false ([ReadResult.fail] : List (ReadResult ℕ))
      (some [0]) 1 (fun x : ℕ => x) (0 : ℕ) 1 = [] := by
  have h := C4_exceptions_contained false
    ([ReadResult.fail] : List (ReadResult ℕ)) [0] 1 (fun x : ℕ => x) (0 : ℕ) 1
  have h1 : (load_video_and_transform false
      ([ReadResult.fail] : List (ReadResult ℕ)) [0] 1
      (fun x : ℕ => x)).result = none :=
    h.2.1 readErrMsg rfl
  exact ⟨h1, h.2.2.2 h1⟩

/-- In a strictly increasing list, every member is bounded by the last
element (Python's `frame_indexs[-1]`). -/
theorem sorted_le_of_getLast? {l : List ℕ} (hs : l.Sorted (· < ·)) {last : ℕ}
    (hl : l.getLast? = some last) : ∀ j ∈ l, j ≤ last := by
  induction l with
  | nil => simp at hl
  | cons a t ih =>
    intro j hj
    rw [List.sorted_cons] at hs
    cases t with
    | nil =>
      simp at hl
      simp at hj
      omega
    | cons b t2 =>
      rw [List.getLast?_cons_cons] at hl
      rcases List.mem_cons.mp hj with rfl | hjt
      · have hlm : last ∈ b :: t2 := List.mem_of_mem_getLast? hl
        exact le_of_lt (hs.1 last hlm)
      · exact ih hs.2 hl j hjt

/-- Splitting the members of a strictly increasing list that are at least
`i`, when `i` itself is a member: `i` comes first. -/
theorem sorted_filter_ge_cons {l : List ℕ} (hs : l.Sorted (· < ·)) {i : ℕ}
    (hi : i ∈ l) :
    l.filter (fun j => decide (i ≤ j)) =
      i :: l.filter (fun j => decide (i + 1 ≤ j)) := by
  induction l with
  | nil => simp at hi
  | cons a t ih =>
    rw [List.sorted_cons] at hs
    rcases List.mem_cons.mp hi with rfl | hit
    · have h1 : t.filter (fun j => decide (i ≤ j)) =
          t.filter (fun j => decide (i + 1 ≤ j)) := by
        refine List.filter_congr ?_
        intro j hj
        have hij : i < j := hs.1 j hj
        simp only [decide_eq_decide]
        omega
      have e1 : decide (i ≤ i) = true := by simp
      have e2 : decide (i + 1 ≤ i) = false := by simp
      rw [List.filter_cons, List.filter_cons, e1, e2]
      simp [h1]
    · have ha : a < i := hs.1 i hit
      have e1 : decide (i ≤ a) = false := by
        simp only [decide_eq_false_iff_not]
        omega
      have e2 : decide (i + 1 ≤ a) = false := by
        simp only [decide_eq_false_iff_not]
        omega
      rw [List.filter_cons, List.filter_cons, e1, e2]
      simp only [Bool.false_eq_true, if_false]
      exact ih hs.2 hit

/-- When `i` is not a member, the members at least `i` are exactly the
members at least `i + 1`. -/
theorem filter_ge_of_not_mem {l : List ℕ} {i : ℕ} (hi : i ∉ l) :
    l.filter (fun j => decide (i ≤ j)) =
      l.filter (fun j => decide (i + 1 ≤ j)) := by
  refine List.filter_congr ?_
  intro j hj
  have : j ≠ i := fun h => hi (h ▸ hj)
  simp only [decide_eq_decide]
  omega

/-- The frame-collection loop on an all-decodable video: starting at index
`i`, it returns exactly the requested indices at least `i`, each mapped to
its decoded frame, in increasing order. -/
theorem readLoop_ok_eq {F : Type} (idxs : List ℕ) (last : ℕ)
    (hlast : idxs.getLast? = some last) (hs : idxs.Sorted (· < ·)) :
    ∀ (video : List F) (i : ℕ),
      readLoop idxs i (video.map ReadResult.ok) =
        Except.ok ((idxs.filter (fun j => decide (i ≤ j))).filterMap
          (fun j => video[j - i]?)) := by
  have hub : ∀ j ∈ idxs, j ≤ last := sorted_le_of_getLast? hs hlast
  intro video
  induction video with
  | nil =>
    intro i
    simp [readLoop]
  | cons f v ih =>
    intro i
    simp only [List.map_cons, readLoop, hlast]
    by_cases hlt : last < i
    · rw [if_pos hlt]
      have hfilt : idxs.filter (fun j => decide (i ≤ j)) = [] := by
        rw [List.filter_eq_nil_iff]
        intro j hj
        have := hub j hj
        simp
        omega
      rw [hfilt]
      simp
    · rw [if_neg hlt]
      by_cases hm : i ∈ idxs
      · have hc : idxs.contains i = true := by simpa using hm
        rw [if_pos hc, ih (i + 1), sorted_filter_ge_cons hs hm]
        simp only [List.filterMap_cons, Nat.sub_self, List.getElem?_cons_zero,
          Except.map]
        congr 1
        congr 1
        refine List.filterMap_congr ?_
        intro j hj
        have hj1 : i + 1 ≤ j := by
          have := List.mem_filter.mp hj
          simpa using this.2
        have hsub : j - i = (j - (i + 1)) + 1 := by omega
        rw [hsub, List.getElem?_cons_succ]
      · have hc : idxs.contains i = false := by simpa using hm
        rw [if_neg (fun h => hm (by simpa using h)), ih (i + 1),
          filter_ge_of_not_mem hm]
        congr 1
        refine List.filterMap_congr ?_
        intro j hj
        have hj1 : i + 1 ≤ j := by
          have := List.mem_filter.mp hj
          simpa using this.2
        have hsub : j - i = (j - (i + 1)) + 1 := by omega
        rw [hsub, List.getElem?_cons_succ]

/-- C7: on a video whose frames at indices `0, 1, 2, ...` all decode, and
a non-empty strictly increasing request list, the loop of lines 71-87
collects exactly the decodable frames whose index is requested, each once,
in increasing index order; and the result only depends on the prefix of
the video up to the maximum requested index, since reading stops there. -/
theorem C7_collects_requested_frames {F : Type} (video : List F)
    (idxs : List ℕ) (hne : idxs ≠ []) (hs : idxs.Sorted (· < ·)) :
    readLoop idxs 0 (video.map ReadResult.ok) =
      Except.ok (idxs.filterMap (fun j => video[j]?)) ∧
    readLoop idxs 0 (video.map ReadResult.ok) =
      readLoop idxs 0 ((video.take (idxs.getLastD 0 + 1)).map ReadResult.ok) := by
  obtain ⟨last, hlast⟩ : ∃ last, idxs.getLast? = some last := by
    cases h : idxs.getLast? with
    | none => exact absurd (List.getLast?_eq_none_iff.mp h) hne
    | some x => exact ⟨x, rfl⟩
  have hub : ∀ j ∈ idxs, j ≤ last := sorted_le_of_getLast? hs hlast
  have hD : idxs.getLastD 0 = last := by
    rw [List.getLastD_eq_getLast?, hlast]
    rfl
  have hfilt0 : ∀ (w : List F),
      readLoop idxs 0 (w.map ReadResult.ok) =
        Except.ok (idxs.filterMap (fun j => w[j]?)) := by
    intro w
    rw [readLoop_ok_eq idxs last hlast hs w 0]
    have h0 : idxs.filter (fun j => decide (0 ≤ j)) = idxs := by
      simp
    rw [h0]
    simp
  constructor
  · exact hfilt0 video
  · rw [hfilt0 video, hfilt0 (video.take (idxs.getLastD 0 + 1))]
    congr 1
    refine List.filterMap_congr ?_
    intro j hj
    have hjl : j ≤ last := hub j hj
    rw [hD]
    rw [List.getElem?_take_of_lt (by omega)]

/-- Witness for C7: a four-frame video with requested indices `[0, 2]`
collects exactly the frames at indices `0` and `2`, in order. -/
theorem C7_collects_requested_witness :
    readLoop [0, 2] 0 (([10, 20, 30, 40] : List ℕ).map ReadResult.ok) =
      Except.ok (([0, 2] : List ℕ).filterMap
        (fun j => ([10, 20, 30, 40] : List ℕ)[j]?)) :=
  (C7_collects_requested_frames [10, 20, 30, 40] [0, 2] (by decide)
    (by decide)).1

/-- The per-batch encode/submit event block of the driver loop. -/
theorem encodesOf_pairs (b : List ℕ) :
    encodesOf ((b.map (fun x => [Ev.encode x, Ev.submitWrite x])).flatten) = b := by
  induction b with
  | nil => rfl
  | cons x t ih =>
    simp only [List.map_cons, List.flatten_cons, encodesOf,
      List.filterMap_append] at *
    simp [ih]

/-- Submissions of the per-batch event block. -/
theorem submitsOf_pairs (b : List ℕ) :
    submitsOf ((b.map (fun x => [Ev.encode x, Ev.submitWrite x])).flatten) = b := by
  induction b with
  | nil => rfl
  | cons x t ih =>
    simp only [List.map_cons, List.flatten_cons, submitsOf,
      List.filterMap_append] at *
    simp [ih]

/-- Encodes of the whole loop section, batch by batch. -/
theorem encodesOf_loop (bs : List (List ℕ)) :
    encodesOf ((bs.map (fun b =>
      (b.map (fun x => [Ev.encode x, Ev.submitWrite x])).flatten)).flatten) =
      bs.flatten := by
  induction bs with
  | nil => rfl
  | cons b t ih =>
    simp only [List.map_cons, List.flatten_cons, encodesOf,
      List.filterMap_append] at *
    rw [ih]
    have := encodesOf_pairs b
    simp only [encodesOf] at this
    rw [this]

/-- Submissions of the whole loop section, batch by batch. -/
theorem submitsOf_loop (bs : List (List ℕ)) :
    submitsOf ((bs.map (fun b =>
      (b.map (fun x => [Ev.encode x, Ev.submitWrite x])).flatten)).flatten) =
      bs.flatten := by
  induction bs with
  | nil => rfl
  | cons b t ih =>
    simp only [List.map_cons, List.flatten_cons, submitsOf,
      List.filterMap_append] at *
    rw [ih]
    have := submitsOf_pairs b
    simp only [submitsOf] at this
    rw [this]

/-- The drain section contains no encode events. -/
theorem encodesOf_drain (l : List ℕ) :
    encodesOf (l.map Ev.drainResult) = [] := by
  induction l with
  | nil => rfl
  | cons x t ih => simpa [encodesOf] using ih

/-- The drain section contains no submit events. -/
theorem submitsOf_drain (l : List ℕ) :
    submitsOf (l.map Ev.drainResult) = [] := by
  induction l with
  | nil => rfl
  | cons x t ih => simpa [submitsOf] using ih

/-- The loop section contains no drain events. -/
theorem drainsOf_loop (bs : List (List ℕ)) :
    drainsOf ((bs.map (fun b =>
      (b.map (fun x => [Ev.encode x, Ev.submitWrite x])).flatten)).flatten) = [] := by
  induction bs with
  | nil => rfl
  | cons b t ih =>
    simp only [List.map_cons, List.flatten_cons, drainsOf,
      List.filterMap_append] at *
    rw [ih]
    have hb : List.filterMap
        (fun e => match e with | Ev.drainResult x => some x | _ => none)
        ((b.map (fun x => [Ev.encode x, Ev.submitWrite x])).flatten) = [] := by
      induction b with
      | nil => rfl
      | cons y s ihb =>
        simp only [List.map_cons, List.flatten_cons, List.filterMap_append]
        simpa using ihb
    rw [hb]
    rfl

/-- Drains of the drain section are exactly the queued items, in order. -/
theorem drainsOf_drain (l : List ℕ) :
    drainsOf (l.map Ev.drainResult) = l := by
  induction l with
  | nil => rfl
  | cons x t ih => simpa [drainsOf] using ih

/-- C6: in every run of the driver loop (lines 319-343), the encoded
items, the submitted persistence tasks, and the drained results all equal
the flat work-item list — one future per encode, every submitted future
collected — and the final barrier is the unique last event of the trace,
after every drain. -/
theorem C6_one_write_per_encode_all_drained (batches : List (List ℕ)) :
    encodesOf (mainTrace batches) = taskItems batches ∧
    submitsOf (mainTrace batches) = taskItems batches ∧
    drainsOf (mainTrace batches) = taskItems batches ∧
    (mainTrace batches).getLast? = some Ev.barrierEnd ∧
    (mainTrace batches).count Ev.barrierEnd = 1 := by
  have hshape : mainTrace batches =
      (Ev.barrierStart :: ((batches.map (fun b =>
        (b.map (fun x => [Ev.encode x, Ev.submitWrite x])).flatten)).flatten
        ++ (taskItems batches).map Ev.drainResult)) ++ [Ev.barrierEnd] := by
    simp [mainTrace]
  refine ⟨?_, ?_, ?_, ?_, ?_⟩
  · simp only [mainTrace, encodesOf, List.filterMap_cons, List.filterMap_append]
    have h1 := encodesOf_loop batches
    have h2 := encodesOf_drain (taskItems batches)
    simp only [encodesOf] at h1 h2
    rw [h1, h2]
    simp [taskItems]
  · simp only [mainTrace, submitsOf, List.filterMap_cons, List.filterMap_append]
    have h1 := submitsOf_loop batches
    have h2 := submitsOf_drain (taskItems batches)
    simp only [submitsOf] at h1 h2
    rw [h1, h2]
    simp [taskItems]
  · simp only [mainTrace, drainsOf, List.filterMap_cons, List.filterMap_append]
    have h1 := drainsOf_loop batches
    have h2 := drainsOf_drain (taskItems batches)
    simp only [drainsOf] at h1 h2
    rw [h1, h2]
    simp
  · rw [hshape, List.getLast?_concat]
  · rw [hshape]
    rw [List.count_append, List.count_cons, List.count_append]
    have h1 : ((batches.map (fun b =>
        (b.map (fun x => [Ev.encode x, Ev.submitWrite x])).flatten)).flatten).count
          Ev.barrierEnd = 0 := by
      rw [List.count_eq_zero]
      simp only [List.mem_flatten, List.mem_map]
      rintro ⟨l, ⟨b, hb, rfl⟩, hmem⟩
      rcases List.mem_flatten.mp hmem with ⟨l2, hl2, hmem2⟩
      rcases List.mem_map.mp hl2 with ⟨x, hx, rfl⟩
      simp at hmem2
    have h2 : ((taskItems batches).map Ev.drainResult).count Ev.barrierEnd = 0 := by
      rw [List.count_eq_zero]
      intro hmem
      rcases List.mem_map.mp hmem with ⟨x, hx, h⟩
      exact Ev.noConfusion h
    rw [h1, h2]
    simp

/-- Ceiling-division bound: `ceil(a / b) * b` covers `a`. -/
theorem le_ceilDiv_mul (a b : ℕ) (hb : 1 ≤ b) : a ≤ (a + b - 1) / b * b := by
  rcases Nat.eq_zero_or_pos a with rfl | ha
  · simp
  · have h1 : a + b - 1 = (a - 1) + b := by omega
    rw [h1, Nat.add_div_right _ hb]
    have hdm : b * ((a - 1) / b) + (a - 1) % b = a - 1 := Nat.div_add_mod _ _
    have hlt : (a - 1) % b < b := Nat.mod_lt _ hb
    have hz : ((a - 1) / b + 1) * b = b * ((a - 1) / b) + b := by ring
    omega

/-- The sampler's total size covers the manifest. -/
theorem le_totalSize (M W : ℕ) (hW : 1 ≤ W) : M ≤ totalSize M W :=
  le_ceilDiv_mul M W hW

/-- Every element of the padded index list is a valid manifest index. -/
theorem paddedIndices_mem {M W j : ℕ} (hj : j ∈ paddedIndices M W) : j < M := by
  simp only [paddedIndices] at hj
  split at hj <;> rcases List.mem_append.mp hj with h | h
  · exact List.mem_range.mp h
  · exact List.mem_range.mp (List.take_subset _ _ h)
  · exact List.mem_range.mp h
  · have h2 := List.take_subset _ _ h
    rcases List.mem_flatten.mp h2 with ⟨l, hl, hjl⟩
    rcases List.eq_of_mem_replicate hl with rfl
    exact List.mem_range.mp hjl

/-- In the padded index list, position `i < M` still holds index `i`
(padding only appends). -/
theorem paddedIndices_getElem (M W i : ℕ) (hi : i < M) :
    (paddedIndices M W)[i]? = some i := by
  have hlen : i < (List.range M).length := by simpa using hi
  simp only [paddedIndices]
  split <;> rw [List.getElem?_append_left hlen, List.getElem?_range hi]

/-- Every index a shard hands out is a valid manifest index (no rank
receives an out-of-range entry). -/
theorem shard_subset {M W r i : ℕ} (hi : i ∈ shard M W r) : i < M := by
  unfold shard at hi
  rcases List.mem_filterMap.mp hi with ⟨k, hk, hget⟩
  exact paddedIndices_mem (List.getElem?_mem hget)

/-- Coverage: manifest index `i` is handed to rank `i % W` (at stride
position `i / W`). -/
theorem shard_cover (M W i : ℕ) (hW : 1 ≤ W) (hi : i < M) :
    i % W < W ∧ i ∈ shard M W (i % W) := by
  have hr : i % W < W := Nat.mod_lt _ (by omega)
  have hM_le : M ≤ totalSize M W := le_totalSize M W hW
  have hk : i / W < numSamples M W := by
    rw [Nat.div_lt_iff_lt_mul (by omega)]
    have : totalSize M W = numSamples M W * W := rfl
    omega
  refine ⟨hr, ?_⟩
  unfold shard
  refine List.mem_filterMap.mpr ⟨i / W, List.mem_range.mpr hk, ?_⟩
  have hpos : i % W + i / W * W = i := Nat.mod_add_div' i W
  rw [hpos]
  exact paddedIndices_getElem M W i hi

/-- When the world size divides the manifest size there is no padding:
the padded index list is exactly `range M`. -/
theorem paddedIndices_eq_range (M W : ℕ) (hW : 1 ≤ W) (hdvd : W ∣ M) :
    paddedIndices M W = List.range M := by
  have htot : totalSize M W = M := by
    rcases hdvd with ⟨c, rfl⟩
    unfold totalSize numSamples
    rcases Nat.eq_zero_or_pos c with rfl | hc
    · have h2 : (W - 1) / W = 0 := Nat.div_eq_of_lt (by omega)
      simp [h2]
    · have h1 : W * c + W - 1 = W - 1 + W * c := by omega
      rw [h1, Nat.add_mul_div_left _ _ (by omega : 0 < W)]
      have h2 : (W - 1) / W = 0 := Nat.div_eq_of_lt (by omega)
      rw [h2]
      ring
  unfold paddedIndices
  rw [htot]
  simp

/-- With no padding, all indices of rank `r`'s shard are congruent to `r`
modulo the world size. -/
theorem shard_mod {M W r i : ℕ} (hW : 1 ≤ W) (hdvd : W ∣ M) (hr : r < W)
    (hi : i ∈ shard M W r) : i % W = r := by
  unfold shard at hi
  rcases List.mem_filterMap.mp hi with ⟨k, hk, hget⟩
  rw [paddedIndices_eq_range M W hW hdvd] at hget
  rcases List.getElem?_eq_some_iff.mp hget with ⟨hlt, hval⟩
  rw [List.getElem_range] at hval
  subst hval
  rw [Nat.add_mul_mod_self_right]
  exact Nat.mod_eq_of_lt hr

/-- C1 (amended): the `DistributedSampler(shuffle=False)` partition of
lines 254-257 is a deterministic function of `(M, W, rank)`; the union of
the shards over ranks `0..W-1` is the full manifest (every index `i < M`
is in the shard of rank `i % W`, and every sharded index is in range);
and when `W` divides `M` the shards are pairwise disjoint, so each entry
is assigned to exactly one rank.  (When `W` does not divide `M` the
sampler pads the index list and the first `totalSize - M` entries are
assigned to two ranks; see the counterexample.) -/
theorem C1_shard_partition (M W : ℕ) (hW : 1 ≤ W) :
    (∀ i, i < M → ∃ r, r < W ∧ i ∈ shard M W r) ∧
    (∀ r i, i ∈ shard M W r → i < M) ∧
    (W ∣ M → ∀ r₁ r₂, r₁ < W → r₂ < W → r₁ ≠ r₂ →
      ∀ i, i ∈ shard M W r₁ → i ∉ shard M W r₂) := by
  refine ⟨?_, ?_, ?_⟩
  · intro i hi
    obtain ⟨hr, hmem⟩ := shard_cover M W i hW hi
    exact ⟨i % W, hr, hmem⟩
  · intro r i hi
    exact shard_subset hi
  · intro hdvd r₁ r₂ h1 h2 hne i hi1 hi2
    have e1 := shard_mod hW hdvd h1 hi1
    have e2 := shard_mod hW hdvd h2 hi2
    rw [e1] at e2
    exact hne e2

/-- Counterexample to C1 as stated: with `M = 3` manifest entries and
`world_size = 2`, the sampler pads the index list to `[0, 1, 2, 0]`, so
manifest entry `0` is assigned to rank `0` and to rank `1`: the shards
are not pairwise disjoint. -/
theorem C1_shard_overlap_counterexample :
    0 ∈ shard 3 2 0 ∧ 0 ∈ shard 3 2 1 ∧ (0 : ℕ) ≠ 1 := by decide

/-- Witness for C1 (amended) at `M = 4`, `W = 2`: entry `0` belongs to
rank `0`'s shard and, by disjointness, not to rank `1`'s. -/
theorem C1_shard_partition_witness : 0 ∉ shard 4 2 1 := by
  have h := C1_shard_partition 4 2 (by decide)
  exact h.2.2 (by decide) 0 1 (by decide) (by decide) (by decide) 0 (by decide)

/-- Python's `round` never rounds below the floor. -/
theorem floor_le_pyRound (q : ℚ) : ⌊q⌋ ≤ pyRound q := by
  unfold pyRound
  split_ifs <;> omega

/-- Python's `round` never rounds above the floor plus one. -/
theorem pyRound_le_floor_add_one (q : ℚ) : pyRound q ≤ ⌊q⌋ + 1 := by
  unfold pyRound
  split_ifs <;> omega

/-- Any integer below a rational is below its Python rounding. -/
theorem le_pyRound_of_le {n : ℤ} {q : ℚ} (h : (n : ℚ) ≤ q) : n ≤ pyRound q :=
  le_trans (Int.le_floor.mpr h) (floor_le_pyRound q)

/-- The centered crop offset never exceeds the slack it centers over. -/
theorem cropOffset_le (d : ℕ) : cropOffset d ≤ d := by
  unfold cropOffset
  rcases Nat.eq_zero_or_pos d with rfl | hd
  · have h0 : pyRound ((0 : ℚ)) = 0 := by
      norm_num [pyRound]
    simp [h0]
  · have hfl : ⌊(d : ℚ) / 2⌋ < (d : ℤ) := by
      rw [Int.floor_lt]
      push_cast
      have hd1 : (1 : ℚ) ≤ (d : ℚ) := by exact_mod_cast hd
      linarith
    have hle : pyRound ((d : ℚ) / 2) ≤ ⌊(d : ℚ) / 2⌋ + 1 :=
      pyRound_le_floor_add_one _
    omega

/-- A center crop to a height not exceeding the image height yields
exactly the requested number of rows. -/
theorem centerCrop_length {α : Type} (tH tW : ℕ) (img : List (List α))
    (h : tH ≤ img.length) : (centerCrop tH tW img).length = tH := by
  unfold centerCrop
  rw [List.length_map, List.length_take, List.length_drop]
  have hoff := cropOffset_le (img.length - tH)
  omega

/-- A center crop to a width not exceeding every row's width yields rows
of exactly the requested width. -/
theorem centerCrop_row_length {α : Type} (tH tW : ℕ) (img : List (List α))
    (hrows : ∀ row ∈ img, tW ≤ row.length) :
    ∀ row ∈ centerCrop tH tW img, row.length = tW := by
  intro row hrow
  unfold centerCrop at hrow
  rcases List.mem_map.mp hrow with ⟨r, hr, rfl⟩
  have hrimg : r ∈ img := List.drop_subset _ _ (List.take_subset _ _ hr)
  have hW := hrows r hrimg
  rw [List.length_take, List.length_drop]
  have hoff := cropOffset_le (r.length - tW)
  omega

/-- C5: with resize requested, `get_transform` resizes to
`(round(h*s), round(w*s))` with `s = max(W/w, H/h)` using bicubic
antialiased resampling and then center-crops to `(H, W)`; the pre-crop
size covers the target box in both dimensions (scale-to-cover), and the
center crop of any image at least as large as the target is exactly
`H` rows by `W` columns. -/
theorem C5_resize_to_cover (w h W' H' : ℕ) (hw : 1 ≤ w) (hh : 1 ≤ h)
    (hW : 1 ≤ W') (hH : 1 ≤ H') :
    get_transform w h W' H' true =
      [TOp.resize
         (pyRound ((h : ℚ) * max ((W' : ℚ) / (w : ℚ)) ((H' : ℚ) / (h : ℚ))))
         (pyRound ((w : ℚ) * max ((W' : ℚ) / (w : ℚ)) ((H' : ℚ) / (h : ℚ))))
         Interp.bicubic true,
       TOp.centerCrop H' W',
       TOp.normalize (1/2, 1/2, 1/2) (1/2, 1/2, 1/2)] ∧
    (H' : ℤ) ≤ pyRound ((h : ℚ) * max ((W' : ℚ) / (w : ℚ)) ((H' : ℚ) / (h : ℚ))) ∧
    (W' : ℤ) ≤ pyRound ((w : ℚ) * max ((W' : ℚ) / (w : ℚ)) ((H' : ℚ) / (h : ℚ))) ∧
    ∀ (img : List (List ℚ)), H' ≤ img.length →
      (∀ row ∈ img, W' ≤ row.length) →
      (centerCrop H' W' img).length = H' ∧
      ∀ row ∈ centerCrop H' W' img, row.length = W' := by
  have hh0 : (0 : ℚ) < (h : ℚ) := by
    have : (1 : ℚ) ≤ (h : ℚ) := by exact_mod_cast hh
    linarith
  have hw0 : (0 : ℚ) < (w : ℚ) := by
    have : (1 : ℚ) ≤ (w : ℚ) := by exact_mod_cast hw
    linarith
  have hcovH : (H' : ℚ) ≤
      (h : ℚ) * max ((W' : ℚ) / (w : ℚ)) ((H' : ℚ) / (h : ℚ)) := by
    have h2 : (h : ℚ) * ((H' : ℚ) / (h : ℚ)) ≤
        (h : ℚ) * max ((W' : ℚ) / (w : ℚ)) ((H' : ℚ) / (h : ℚ)) :=
      mul_le_mul_of_nonneg_left (le_max_right _ _) (le_of_lt hh0)
    have h1 : (h : ℚ) * ((H' : ℚ) / (h : ℚ)) = (H' : ℚ) := by
      field_simp
    linarith
  have hcovW : (W' : ℚ) ≤
      (w : ℚ) * max ((W' : ℚ) / (w : ℚ)) ((H' : ℚ) / (h : ℚ)) := by
    have h2 : (w : ℚ) * ((W' : ℚ) / (w : ℚ)) ≤
        (w : ℚ) * max ((W' : ℚ) / (w : ℚ)) ((H' : ℚ) / (h : ℚ)) :=
      mul_le_mul_of_nonneg_left (le_max_left _ _) (le_of_lt hw0)
    have h1 : (w : ℚ) * ((W' : ℚ) / (w : ℚ)) = (W' : ℚ) := by
      field_simp
    linarith
  refine ⟨rfl, le_pyRound_of_le (by exact_mod_cast hcovH),
    le_pyRound_of_le (by exact_mod_cast hcovW), ?_⟩
  intro img hhei hwid
  exact ⟨centerCrop_length _ _ _ hhei, centerCrop_row_length _ _ _ hwid⟩

/-- Witness for C5: a 3-by-4 source scaled to cover an 8-by-3 target has
scale 2, pre-crop size 6-by-8 covering the target, and the center crop of
a 6-by-8 grid is exactly 3 rows by 8 columns. -/
theorem C5_resize_to_cover_witness :
    (3 : ℤ) ≤ pyRound ((3 : ℚ) * max ((8 : ℚ) / (4 : ℚ)) ((3 : ℚ) / (3 : ℚ))) ∧
    (centerCrop 3 8 (List.replicate 6 (List.replicate 8 (0 : ℚ)))).length = 3 := by
  have h := C5_resize_to_cover 4 3 8 3 (by decide) (by decide) (by decide)
    (by decide)
  refine ⟨h.2.1, (h.2.2.2 (List.replicate 6 (List.replicate 8 (0 : ℚ)))
    ?_ ?_).1⟩
  · simp
  · intro row hrow
    rcases List.eq_of_mem_replicate hrow with rfl
    simp
